import Mathlib

/-!
# Verification of the DotFileCommander synchronization core

A shallow embedding, in Lean 4, of the hashing / storage-routing / version-manifest /
conflict-analysis / backup-restore core of the `dfc` dotfile synchronizer, together
with proofs and refutations of the behavioral claims made by its specification.

The embedding models:

* the slash-separated lexical path algebra of Go's `path/filepath`
  (`Clean`, `Join`, `Rel`, `Base`) as used by `internal/storage` and `internal/hash`;
* the storage router (`RepoDir`, `ManifestKey`);
* the version manifest (`Load`-free in-memory form, `GetEntry`, `GetVersion`,
  `BumpVersion`);
* the deterministic directory hasher (`HashDir`) over an abstract filesystem tree,
  with SHA-256 itself treated as an uninterpreted function of the byte stream fed
  to it (two digests are compared by comparing the streams);
* the conflict analyzer (`CheckConflicts`);
* the backup and restore engines' progress-event streams (`backup.Run`,
  `restore.Run`) and the UI-side post-backup bookkeeping
  (`handleBackupProgress`);
* the main-menu profile gate (`needsProfile`) and the profile editor.

Filesystem and environment effects (reading files, `os.UserHomeDir`, SHA-256)
are passed in as explicit oracles/parameters, so every definition is executable.
-/

namespace Dfc

/-! ## Go `path/filepath` lexical path algebra (slash-separated, Unix rules)

All functions work on `List Char` internally so that they are structural
recursions which the kernel can evaluate. Strings are split into components
at `/`; `Clean` post-processes `.` and `..` exactly as Go's `filepath.Clean`
does for rooted and relative paths. -/

/-- Split a character list at `/` characters. Models the component
decomposition used by `filepath.Clean`: `splitSlash "a//b".data = ["a","","b"]`
(empty components are dropped later by the clean pass). -/
def splitSlashAux (acc : List Char) : List Char → List (List Char)
  | [] => [acc.reverse]
  | c :: rest =>
    if c = '/' then acc.reverse :: splitSlashAux [] rest
    else splitSlashAux (c :: acc) rest

def splitSlash (s : List Char) : List (List Char) :=
  splitSlashAux [] s

/-- Join components with `/`. -/
def joinComps : List (List Char) → List Char
  | [] => []
  | [c] => c
  | c :: rest => c ++ '/' :: joinComps rest

/-- The element processing of Go's `filepath.Clean`: drop empty and `.`
components; `..` pops the previous component when possible, is dropped at the
root of a rooted path, and is kept at the front of a relative path. `out` is
the processed prefix in reverse order. -/
def cleanCompsAux (rooted : Bool) (out : List (List Char)) :
    List (List Char) → List (List Char)
  | [] => out.reverse
  | c :: rest =>
    if c = [] ∨ c = ['.'] then cleanCompsAux rooted out rest
    else if c = ['.', '.'] then
      match out with
      | [] => if rooted then cleanCompsAux rooted [] rest
              else cleanCompsAux rooted [['.', '.']] rest
      | o :: os =>
        if o = ['.', '.'] then cleanCompsAux rooted (c :: o :: os) rest
        else cleanCompsAux rooted os rest
    else cleanCompsAux rooted (c :: out) rest

def cleanComps (rooted : Bool) (cs : List (List Char)) : List (List Char) :=
  cleanCompsAux rooted [] cs

/-- Go `filepath.Clean` for slash-separated paths. -/
def pclean (s : String) : String :=
  match s.data with
  | [] => "."
  | c :: cs =>
    let rooted := c = '/'
    let comps := cleanComps rooted (splitSlash (c :: cs))
    let body := joinComps comps
    if rooted then ⟨'/' :: body⟩
    else if body = [] then "." else ⟨body⟩

/-- Go `filepath.Join`: drop leading empty elements, join the rest with `/`,
then `Clean`. Returns `""` when every element is empty. -/
def pjoin (elems : List String) : String :=
  match elems.dropWhile (fun e => e = "") with
  | [] => ""
  | es => pclean ⟨joinComps (es.map String.data)⟩

/-- Go `filepath.Base`: the last element of the cleaned path; `"/"` for the
root, `"."` for the empty path. -/
def pbase (s : String) : String :=
  match s.data with
  | [] => "."
  | c :: cs =>
    let rooted := c = '/'
    match (cleanComps rooted (splitSlash (c :: cs))).getLast? with
    | some comp => ⟨comp⟩
    | none => if rooted then "/" else "."

/-- Drop the longest common prefix of two component lists (the segment
comparison loop of Go's `filepath.Rel`). -/
def dropCommon : List (List Char) → List (List Char) →
    List (List Char) × List (List Char)
  | a :: as, b :: bs =>
    if a = b then dropCommon as bs else (a :: as, b :: bs)
  | as, bs => (as, bs)

/-- Go `filepath.Rel basepath targpath` for slash-separated paths (no volume
names): clean both; equal paths relate by `"."`; mixing absolute and relative
paths is an error; otherwise strip the common component prefix, refuse a
remaining `..` on the base side, and prepend one `..` per remaining base
component. `none` models the `error` return. -/
def prel (basepath targpath : String) : Option String :=
  let base := pclean basepath
  let targ := pclean targpath
  if base = targ then some "."
  else
    let baseAbs := base.data.head? = some '/'
    let targAbs := targ.data.head? = some '/'
    if baseAbs ≠ targAbs then none
    else
      let bcs := if base = "." then []
                 else cleanComps baseAbs (splitSlash base.data)
      let tcs := if targ = "." then []
                 else cleanComps targAbs (splitSlash targ.data)
      let (brest, trest) := dropCommon bcs tcs
      if brest.head? = some ['.', '.'] then none
      else
        let ups : List (List Char) := brest.map (fun _ => ['.', '.'])
        some ⟨joinComps (ups ++ trest)⟩

/-- ASCII lowercasing of a character ( `strings.ToLower` restricted to the
ASCII range; profile names are plain machine names in practice). -/
def lowerChar (c : Char) : Char :=
  if 'A' ≤ c ∧ c ≤ 'Z' then Char.ofNat (c.toNat + 32) else c

/-- `strings.ToLower` (ASCII model). -/
def stringsToLower (s : String) : String :=
  ⟨s.data.map lowerChar⟩

/-- ASCII whitespace test, for the `strings.TrimSpace` model. -/
def isSpaceChar (c : Char) : Bool :=
  c = ' ' ∨ c = '\t' ∨ c = '\n' ∨ c = '\r'

/-- `strings.TrimSpace` (ASCII model). -/
def stringsTrimSpace (s : String) : String :=
  ⟨(s.data.dropWhile isSpaceChar).reverse.dropWhile isSpaceChar |>.reverse⟩

/-- `strings.HasPrefix s "~/"` specialized to the tilde prefix used by
`expandHome`. -/
def hasTildePrefix (s : String) : Bool :=
  match s.data with
  | '~' :: '/' :: _ => true
  | _ => false

/-- The remainder `path[2:]` after the `"~/"` prefix. -/
def dropTilde (s : String) : String :=
  ⟨s.data.drop 2⟩

/-- `expandHome` as defined (identically) in `internal/storage`,
`internal/hash`, `internal/backup`, `internal/restore` and
`internal/manifest`: a `"~/"` prefix is replaced by `filepath.Join(home,
path[2:])`. The home directory is an explicit parameter (the code reads it
from `os.UserHomeDir`, assumed available). -/
def expandHome (home path : String) : String :=
  if hasTildePrefix path then pjoin [home, dropTilde path] else path

/-- `homeRelative` as defined in `internal/storage` (and, identically, in
`internal/backup` / `internal/restore`): expand the home prefix, then make the
result relative to the home directory, falling back to `filepath.Base` when
`filepath.Rel` fails. -/
def homeRelative (home path : String) : String :=
  let p := expandHome home path
  match prel home p with
  | some rel => rel
  | none => pbase p

/-! ## Data model: `config.Entry`, `manifest.EntryVersion`, `manifest.Manifest`

`config.Entry` is the tracked-entry record (`internal/config/config.go`; the
`ProfileSpecific` and `LastHash` fields appear in every consumer:
`storage.RepoDir`, `restore.CheckConflicts`, the UI views). Timestamps are
modelled as `Nat` instants passed in by the caller ("now"). Go `int` is
modelled as `Int`. -/

structure Entry where
  path : String
  name : String := ""
  isDir : Bool := false
  profileSpecific : Bool := false
  localVersion : Int := 0
  lastHash : String := ""
deriving Repr, DecidableEq

/-- `manifest.EntryVersion`: the per-storage-key manifest record. The zero
value (Go's map-miss result) has `version = 0` and empty strings. -/
structure EntryVersion where
  version : Int := 0
  updatedAt : Nat := 0
  updatedBy : String := ""
  contentHash : String := ""
deriving Repr, DecidableEq

/-- `manifest.Manifest`: a string-keyed map of `EntryVersion` records,
modelled as an association list (later bindings shadow earlier ones, as
produced by `setEntry`). -/
structure Manifest where
  entries : List (String × EntryVersion)
deriving Repr, DecidableEq

/-- Go map read `m.Entries[key]`: the zero `EntryVersion` when absent. -/
def Manifest.getEntry (m : Manifest) (key : String) : EntryVersion :=
  match m.entries.find? (fun kv => kv.1 = key) with
  | some kv => kv.2
  | none => {}

/-- `Manifest.GetVersion`: the version for a key, `0` if never backed up. -/
def Manifest.getVersion (m : Manifest) (key : String) : Int :=
  (m.getEntry key).version

/-- Go map write `m.Entries[key] = ev`. -/
def Manifest.setEntry (m : Manifest) (key : String) (ev : EntryVersion) :
    Manifest :=
  ⟨(key, ev) :: m.entries.filter (fun kv => ¬ kv.1 = key)⟩

/-- `Manifest.BumpVersion` as written in `internal/manifest/manifest.go`
(lines 64–74): unconditionally increment the version, overwrite the hash,
stamp `updated_at`/`updated_by`. The current UI caller uses the later,
conditional variant `bumpVersion` below. -/
def Manifest.bumpVersionUncond (m : Manifest) (key contentHash : String)
    (now : Nat) (host : String) : Manifest :=
  let ev := m.getEntry key
  m.setEntry key
    { version := ev.version + 1, updatedAt := now, updatedBy := host,
      contentHash := contentHash }

/-- Modelled from the spec: the current `Manifest.BumpVersion` (the revision
called as `bumped := mf.BumpVersion(mkey, item.contentHash)` in
`internal/ui/backup_view.go` lines 147–148) is not among the source files;
per the spec's §3/§4.3/§4.5, it bumps the version and overwrites the record
only when the given content hash actually differs from the one already
recorded, returning whether a bump happened. -/
def Manifest.bumpVersion (m : Manifest) (key contentHash : String)
    (now : Nat) (host : String) : Manifest × Bool :=
  let ev := m.getEntry key
  if ev.contentHash = contentHash then (m, false)
  else
    (m.setEntry key
      { version := ev.version + 1, updatedAt := now, updatedBy := host,
        contentHash := contentHash }, true)

/-! ## Storage router (`internal/storage`, src/unnamed/part_018) -/

/-- `storage.RepoDir`: the destination directory inside the repo for an
entry. Shared entries live under `shared/<homeRelPath>`, profile entries
under `profiles/<lowercased profile>/<homeRelPath>`; a profile-specific entry
with an empty profile falls into the `shared` branch. -/
def RepoDir (home : String) (entry : Entry) (profile : String) : String :=
  let rel := homeRelative home entry.path
  if entry.profileSpecific ∧ ¬ profile = "" then
    pjoin ["profiles", stringsToLower profile, rel]
  else
    pjoin ["shared", rel]

/-- `storage.ManifestKey`: the manifest map key for an entry. Note that,
unlike `RepoDir`, it concatenates the *raw stored* `entry.Path` (which is
`~/`-prefixed) rather than the home-relative form. -/
def ManifestKey (entry : Entry) (profile : String) : String :=
  if entry.profileSpecific ∧ ¬ profile = "" then
    "profiles/" ++ stringsToLower profile ++ "/" ++ entry.path
  else
    "shared/" ++ entry.path

/-- `storage.LegacyRepoDir`: the old flat layout location. -/
def LegacyRepoDir (home : String) (entry : Entry) : String :=
  homeRelative home entry.path

/-- `storage.LegacyManifestKey`: the old flat manifest key. -/
def LegacyManifestKey (entry : Entry) : String :=
  entry.path

/-! ## Conflict analyzer (`internal/restore`, src/unnamed/part_016)

The local content hash is an effectful computation (`hash.HashEntry`); it is
modelled by an oracle `hashEntry : Entry → Option String`, `none` meaning the
hash failed (file missing or unreadable). -/

inductive ConflictState where
  | clean
  | newerInRepo
  | modifiedLocal
  | conflict
  | unknown
deriving Repr, DecidableEq

structure ConflictResult where
  entry : Entry
  state : ConflictState := .clean
  localHash : String := ""
  repoHash : String := ""
deriving Repr, DecidableEq

/-- The loop body of `CheckConflicts` (src/unnamed/part_016, lines 49–105)
for a single entry: the manifest record is read at the raw entry path, the
local hash is computed, and the four-way classification is applied, with the
`last_known_hash`-absent case and the "repo newer but content identical"
downgrade handled as in the source. -/
def checkConflictEntry (hashEntry : Entry → Option String) (mf : Manifest)
    (e : Entry) : ConflictResult :=
  let mv := mf.getEntry e.path
  let repoHash := mv.contentHash
  match hashEntry e with
  | none =>
    -- Can't hash local (file missing, etc) — safe to restore
    { entry := e, state := .clean, repoHash := repoHash }
  | some localHash =>
    let repoNewer := mv.version > e.localVersion
    if e.lastHash = "" then
      -- No prior hash recorded
      if ¬ repoHash = "" ∧ ¬ localHash = repoHash then
        if repoNewer then
          { entry := e, state := .conflict, localHash := localHash,
            repoHash := repoHash }
        else
          { entry := e, state := .modifiedLocal, localHash := localHash,
            repoHash := repoHash }
      else
        { entry := e, state := .clean, localHash := localHash,
          repoHash := repoHash }
    else
      let localModified := ¬ localHash = e.lastHash
      let state :=
        if ¬ localModified ∧ ¬ repoNewer then ConflictState.clean
        else if ¬ localModified ∧ repoNewer then
          -- Repo is newer but local unchanged — check if content differs
          if ¬ repoHash = "" ∧ ¬ localHash = repoHash then
            ConflictState.newerInRepo
          else
            ConflictState.clean
        else if localModified ∧ ¬ repoNewer then ConflictState.modifiedLocal
        else ConflictState.conflict
      { entry := e, state := state, localHash := localHash,
        repoHash := repoHash }

/-- `restore.CheckConflicts` (src/unnamed/part_016): one result per entry. -/
def CheckConflicts (hashEntry : Entry → Option String) (entries : List Entry)
    (mf : Manifest) : List ConflictResult :=
  entries.map (checkConflictEntry hashEntry mf)

/-- Modelled from the spec: the current three-argument `CheckConflicts`
(called as `restore.CheckConflicts(filtered, m.restoreManifest,
m.cfg.DeviceProfile)` in `internal/ui/restore_view.go` line 91) is not among
the source files; src/unnamed/part_016 and part_017 are two earlier
two-argument revisions. Per the spec's §4.4 step 1, it looks the manifest
record up under the entry's routed storage key (`storage.ManifestKey`), the
classification being that of part_016. -/
def checkConflictEntryCur (hashEntry : Entry → Option String) (mf : Manifest)
    (profile : String) (e : Entry) : ConflictResult :=
  let mv := mf.getEntry (ManifestKey e profile)
  let repoHash := mv.contentHash
  match hashEntry e with
  | none => { entry := e, state := .clean, repoHash := repoHash }
  | some localHash =>
    let repoNewer := mv.version > e.localVersion
    if e.lastHash = "" then
      if ¬ repoHash = "" ∧ ¬ localHash = repoHash then
        if repoNewer then
          { entry := e, state := .conflict, localHash := localHash,
            repoHash := repoHash }
        else
          { entry := e, state := .modifiedLocal, localHash := localHash,
            repoHash := repoHash }
      else
        { entry := e, state := .clean, localHash := localHash,
          repoHash := repoHash }
    else
      let localModified := ¬ localHash = e.lastHash
      let state :=
        if ¬ localModified ∧ ¬ repoNewer then ConflictState.clean
        else if ¬ localModified ∧ repoNewer then
          if ¬ repoHash = "" ∧ ¬ localHash = repoHash then
            ConflictState.newerInRepo
          else
            ConflictState.clean
        else if localModified ∧ ¬ repoNewer then ConflictState.modifiedLocal
        else ConflictState.conflict
      { entry := e, state := state, localHash := localHash,
        repoHash := repoHash }

/-- Modelled from the spec: list form of the current conflict analysis. -/
def CheckConflictsCur (hashEntry : Entry → Option String)
    (entries : List Entry) (mf : Manifest) (profile : String) :
    List ConflictResult :=
  entries.map (checkConflictEntryCur hashEntry mf profile)

/-! ## Directory hasher (`internal/hash`, src/unnamed/part_003, lines 130–196)

`HashDir` walks a directory tree, partitions the encountered entries into
regular files and symlinks, sorts both lists of paths, then feeds into one
SHA-256 state: for each file its relative path followed by its content, and
for each symlink the marker `"symlink:"` plus its relative path followed by
its link target.

The filesystem is an explicit tree (`FsNode`); `filepath.WalkDir`'s delivery
of it — including the pruning of `.git` directories and of unreadable
directories, whose `ReadDir` error the callback swallows with `return nil` —
is the collection function `collectNode`. Reading file bytes
(`os.Open`/`io.Copy`) and link targets (`os.Readlink`) happens *after* the
walk, so it is modelled by oracles keyed on the full path: `readFile p =
none` is an open error (the file contributes only its relative path, which
was already written to the hash state before the open); `readFile p = some
b` means `b` is the byte string the hash ingested (the full content, or the
prefix ingested before a mid-read error, after which the code skips on);
`readLink` likewise. SHA-256 is an uninterpreted parameter `sha` applied to
the concatenated byte stream: two digests are equal whenever the streams
are. -/

inductive FsNode where
  | file (name : String)
  | symlink (name : String)
  | special (name : String)
  | dir (name : String) (readErr : Bool) (children : List FsNode)
deriving Repr

def FsNode.name : FsNode → String
  | .file n => n
  | .symlink n => n
  | .special n => n
  | .dir n _ _ => n

/-- What the `WalkDir` callback collects from a node rooted at full path
`p`: the regular-file paths and the symlink paths, in traversal order.
Directories named `.git` are pruned (`filepath.SkipDir`); a directory whose
read fails contributes nothing below itself (the callback swallows the
`ReadDir` error); special files are dropped. -/
def collectNode (p : String) : FsNode → List String × List String
  | .file _ => ([p], [])
  | .symlink _ => ([], [p])
  | .special _ => ([], [])
  | .dir n readErr children =>
    if n = ".git" ∨ readErr then ([], [])
    else collectChildren p children
where
  collectChildren (p : String) : List FsNode → List String × List String
    | [] => ([], [])
    | c :: cs =>
      let here := collectNode (pjoin [p, c.name]) c
      let rest := collectChildren p cs
      (here.1 ++ rest.1, here.2 ++ rest.2)

/-- `sort.Strings`: the lexicographically sorted permutation of the list
(Go sorts by byte order, which for UTF-8 agrees with the code-point order
used by `String`'s linear order). The sorted permutation under a total
antisymmetric order is unique, so insertion sort realizes exactly the
semantics of the source's sort call. -/
def sortStrings (l : List String) : List String :=
  l.insertionSort (· ≤ ·)

/-- The bytes the file loop writes to the hash for one collected path `fp`:
the path relative to the root (skipping the file on a `filepath.Rel` error)
followed by whatever content was read (nothing further on an open error). -/
def fileWrites (root : String) (readFile : String → Option String)
    (fp : String) : String :=
  match prel root fp with
  | none => ""
  | some rel =>
    match readFile fp with
    | none => rel
    | some content => rel ++ content

/-- The bytes the symlink loop writes for one collected symlink path. -/
def symlinkWrites (root : String) (readLink : String → Option String)
    (sp : String) : String :=
  match prel root sp with
  | none => ""
  | some rel =>
    match readLink sp with
    | none => "symlink:" ++ rel
    | some target => "symlink:" ++ rel ++ target

/-- The full byte stream `HashDir` feeds to SHA-256. -/
def hashDirStream (root : String) (readFile readLink : String → Option String)
    (files symlinks : List String) : String :=
  ((sortStrings files).map (fileWrites root readFile)).foldl (· ++ ·) ""
    ++ ((sortStrings symlinks).map (symlinkWrites root readLink)).foldl
        (· ++ ·) ""

/-- `hash.HashDir` (the refined revision, src/unnamed/part_003 lines
130–196). `fs = none` models a root that cannot even be stat-ed: `WalkDir`
reports the error to the callback once, the callback's `if err != nil {
return nil }` swallows it, and the hash proceeds over the empty collection.
Since every callback branch returns `nil` (or `SkipDir`), the `err` returned
by `WalkDir` is always `nil` and the error return of `HashDir` is
unreachable; the `Except` type mirrors the Go signature. -/
def HashDir (sha : String → String)
    (readFile readLink : String → Option String) (root : String)
    (fs : Option FsNode) : Except String String :=
  let collected := match fs with
    | none => ([], [])
    | some n => collectNode root n
  .ok (sha (hashDirStream root readFile readLink collected.1 collected.2))

/-- A concrete alternative enumeration order of the same tree: every
directory's children list reversed, recursively. -/
def reverseEnum : FsNode → FsNode
  | .file n => .file n
  | .symlink n => .symlink n
  | .special n => .special n
  | .dir n e children => .dir n e (reverseEnumList children).reverse
where
  reverseEnumList : List FsNode → List FsNode
    | [] => []
    | c :: cs => reverseEnum c :: reverseEnumList cs

/-! ## Backup and restore engines (`internal/backup/backup.go`,
`internal/restore/restore.go`)

`Run` iterates the submitted entries in order inside one goroutine and sends
exactly one `Progress` per entry on the channel — the terminal one, with
`Done = true` and `Index = i`. The copy work and the post-copy hash are
effectful; they are modelled by per-entry oracles. The channel's contents
are modelled as the list of sent events. -/

structure CopyOutcome where
  err : Option String := none
  bytesCopied : Int := 0
  bytesTotal : Int := 0
  skipped : Nat := 0
  copied : Nat := 0
deriving Repr, DecidableEq

structure BackupProgress where
  entry : Entry
  index : Nat
  total : Nat
  done : Bool := false
  err : Option String := none
  bytesCopied : Int := 0
  bytesTotal : Int := 0
  contentHash : String := ""
  skipped : Nat := 0
  copied : Nat := 0
  warning : String := ""
deriving Repr, DecidableEq

/-- The body of `backup.Run`'s loop for entry `e` at index `i` (lines
43–72): copy, mark done, attach the error; on success compute the warning
for an all-skipped directory and the content hash of the source, leaving
`ContentHash` empty when the hash itself fails. `describeSkipped` stands for
the `describeSkippedDir` message. -/
def backupEntryProgress (copy : Entry → CopyOutcome)
    (hashEntry : Entry → Option String) (describeSkipped : Entry → String)
    (total : Nat) (i : Nat) (e : Entry) : BackupProgress :=
  let out := copy e
  let base : BackupProgress :=
    { entry := e, index := i, total := total, done := true, err := out.err,
      bytesCopied := out.bytesCopied, bytesTotal := out.bytesTotal,
      skipped := out.skipped, copied := out.copied }
  match out.err with
  | some _ => base
  | none =>
    let base :=
      if e.isDir ∧ out.copied = 0 ∧ out.skipped > 0 then
        { base with warning := describeSkipped e }
      else base
    match hashEntry e with
    | some h => { base with contentHash := h }
    | none => base

/-- `backup.Run`: the stream of progress events, one terminal event per
submitted entry, in submission order. -/
def backupRun (copy : Entry → CopyOutcome)
    (hashEntry : Entry → Option String) (describeSkipped : Entry → String)
    (entries : List Entry) : List BackupProgress :=
  (List.range entries.length).zip entries |>.map
    (fun ie => backupEntryProgress copy hashEntry describeSkipped
      entries.length ie.1 ie.2)

structure RestoreProgress where
  entry : Entry
  index : Nat
  total : Nat
  done : Bool := false
  err : Option String := none
  bytesCopied : Int := 0
  bytesTotal : Int := 0
  skipped : Nat := 0
  skipReasons : List String := []
deriving Repr, DecidableEq

structure RestoreOutcome where
  err : Option String := none
  bytesCopied : Int := 0
  bytesTotal : Int := 0
  skipped : Nat := 0
  skipReasons : List String := []
deriving Repr, DecidableEq

/-- `restore.Run` (the profile-aware revision, src/internal/restore/restore.go
lines 30–61): one terminal event per entry, in order. -/
def restoreRun (copy : Entry → RestoreOutcome) (entries : List Entry) :
    List RestoreProgress :=
  (List.range entries.length).zip entries |>.map
    (fun ie =>
      let out := copy ie.2
      { entry := ie.2, index := ie.1, total := entries.length, done := true,
        err := out.err, bytesCopied := out.bytesCopied,
        bytesTotal := out.bytesTotal, skipped := out.skipped,
        skipReasons := out.skipReasons })

/-! ## UI-side backup bookkeeping (`internal/ui/backup_view.go`, lines
138–168)

Once every progress item is done, the caller bumps the manifest under each
successfully backed-up entry's `storage.ManifestKey`, copies the resulting
version and the reported content hash into the entry's `LocalVersion` /
`LastHash`, counts how many bumps actually happened, and commits+pushes only
when that count is positive. -/

structure BackupItem where
  done : Bool := false
  err : Option String := none
  contentHash : String := ""
deriving Repr, DecidableEq

structure BackupOutcomeState where
  mf : Manifest
  entries : List Entry
  changed : Nat
deriving Repr, DecidableEq

def processBackupAux (profile : String) (now : Nat) (host : String) :
    List (BackupItem × Entry) → Manifest → BackupOutcomeState
  | [], mf => ⟨mf, [], 0⟩
  | (item, e) :: rest, mf =>
    if item.done ∧ item.err = none then
      let mkey := ManifestKey e profile
      let bump := mf.bumpVersion mkey item.contentHash now host
      let e' := { e with localVersion := bump.1.getVersion mkey,
                         lastHash := item.contentHash }
      let s := processBackupAux profile now host rest bump.1
      ⟨s.mf, e' :: s.entries, s.changed + (if bump.2 then 1 else 0)⟩
    else
      let s := processBackupAux profile now host rest mf
      ⟨s.mf, e :: s.entries, s.changed⟩

/-- `handleBackupProgress`'s all-done block: process the (item, entry) pairs
in order, then commit+push iff at least one entry actually changed. -/
def processBackupResults (profile : String) (now : Nat) (host : String)
    (entries : List Entry) (items : List BackupItem) (mf : Manifest) :
    BackupOutcomeState × Bool :=
  let s := processBackupAux profile now host (items.zip entries) mf
  (s, s.changed > 0)

/-! ## Main-menu profile gate (`internal/ui/mainmenu.go`) -/

structure Config where
  repoURL : String := ""
  repoPath : String := ""
  deviceProfile : String := ""
  entries : List Entry := []
deriving Repr, DecidableEq

/-- `needsProfile` (mainmenu.go lines 128–139): true iff no device profile
is set and some tracked entry is profile-specific. -/
def needsProfile (cfg : Config) : Bool :=
  if ¬ cfg.deviceProfile = "" then false
  else cfg.entries.any (·.profileSpecific)

/-- The actions the main menu's enter key can produce on the Backup and
Restore rows. -/
inductive MenuAction where
  | startBackup
  | openRestore
  | deferToProfileEdit
  | other
deriving Repr, DecidableEq

/-- The enter-key branch of `updateMainMenu` (mainmenu.go lines 23–47): on
Backup (cursor 0) and Restore (cursor 1) the engines are started only when
`needsProfile` is false; otherwise the view is switched to the profile
editor and the pending operation is remembered. -/
def mainMenuEnter (cfg : Config) (cursor : Nat) : MenuAction :=
  match cursor with
  | 0 => if needsProfile cfg then .deferToProfileEdit else .startBackup
  | 1 => if needsProfile cfg then .deferToProfileEdit else .openRestore
  | _ => .other

/-- The enter key of the profile editor (src/unnamed/part_009): an input
whose trimmed, lowercased form is empty is rejected; otherwise the profile
is saved and the deferred operation (if any) is started with it. -/
def profileEditEnter (cfg : Config) (input : String) :
    Option (Config × String) :=
  let profile := stringsToLower (stringsTrimSpace input)
  if profile = "" then none
  else some ({ cfg with deviceProfile := profile }, profile)

/-! ## Concrete example data used to instantiate theorems -/

/-- A concrete configuration with one profile-specific entry and no device
profile, used to instantiate the profile-gate theorem. -/
def cfgGateExample : Config :=
  { entries := [{ path := "~/.config/nvim", profileSpecific := true }] }

/-- The tracked entry of the no-op-backup example as it stands after its
first backup: local version 1, last hash `"h"`. -/
def entryAfterFirstBackup : Entry :=
  { path := "~/a", localVersion := 1, lastHash := "h" }

/-! ## Well-formedness of path components -/

/-- A well-formed, already-clean path component: non-empty, free of `/`,
and neither `.` nor `..`. Entry paths as entered (`~/.config/nvim`) and
sensible device-profile names satisfy this componentwise. -/
def CleanComp (c : List Char) : Prop :=
  ¬ c = [] ∧ '/' ∉ c ∧ ¬ c = ['.'] ∧ ¬ c = ['.', '.']

instance (c : List Char) : Decidable (CleanComp c) := by
  unfold CleanComp; infer_instance

/-! ## Shared lemmas about the manifest map -/

theorem Manifest.getEntry_setEntry_self (m : Manifest) (k : String)
    (ev : EntryVersion) : (m.setEntry k ev).getEntry k = ev := by
  simp [Manifest.getEntry, Manifest.setEntry]

theorem Manifest.contentHash_bumpVersion_self (m : Manifest) (k h : String)
    (now : Nat) (host : String) :
    (((m.bumpVersion k h now host).1).getEntry k).contentHash = h := by
  unfold Manifest.bumpVersion
  by_cases hc : (m.getEntry k).contentHash = h
  · simp [hc]
  · simp [hc, Manifest.getEntry_setEntry_self]

theorem Manifest.bumpVersion_eq_of_contentHash_eq (m : Manifest)
    (k h : String) (now : Nat) (host : String)
    (hc : (m.getEntry k).contentHash = h) :
    m.bumpVersion k h now host = (m, false) := by
  simp [Manifest.bumpVersion, hc]

/-! ## Claim C1: the "repo newer but content identical" downgrade -/

/-- C1, counterexample. The claim also asserts that whenever the stored hash
*differs* from the local hash (everything else as in the claim's hypothesis)
the entry is classified NewerInRepo. At a manifest record whose version was
bumped but whose stored content hash is empty (which the code produces when
a backup's post-copy hash fails, see C10), the stored hash `""` differs from
the local hash `"h1"` and yet `CheckConflicts` classifies the entry Clean:
the code additionally requires the stored hash to be non-empty
(`cr.RepoHash != ""`, src/unnamed/part_016 line 93). -/
theorem checkConflicts_newerInRepo_counterexample :
    (¬ ({ path := "~/.vimrc", localVersion := 1, lastHash := "h1" :
          Entry }).lastHash = "")
    ∧ ((Manifest.mk [("~/.vimrc", { version := 2, contentHash := "" })]).getEntry
        "~/.vimrc").version
        > ({ path := "~/.vimrc", localVersion := 1, lastHash := "h1" :
            Entry }).localVersion
    ∧ ¬ ((Manifest.mk [("~/.vimrc", { version := 2, contentHash := "" })]).getEntry
        "~/.vimrc").contentHash = "h1"
    ∧ (checkConflictEntry (fun _ => some "h1")
        (Manifest.mk [("~/.vimrc", { version := 2, contentHash := "" })])
        { path := "~/.vimrc", localVersion := 1, lastHash := "h1" }).state
        = ConflictState.clean
    ∧ ¬ (checkConflictEntry (fun _ => some "h1")
        (Manifest.mk [("~/.vimrc", { version := 2, contentHash := "" })])
        { path := "~/.vimrc", localVersion := 1, lastHash := "h1" }).state
        = ConflictState.newerInRepo := by
  decide

/-- C1 (amended): for an entry with a remembered last-known hash equal to the
freshly computed local hash, when the manifest record's version exceeds the
entry's local version: if the stored content hash equals the local hash the
state is Clean (not NewerInRepo); if the stored hash is non-empty and differs
from the local hash the state is NewerInRepo; and if the stored hash is empty
the state is likewise Clean. -/
theorem checkConflicts_repoNewer_classification
    (hashEntry : Entry → Option String) (mf : Manifest) (e : Entry)
    (h : String) (hlast : ¬ e.lastHash = "") (hh : hashEntry e = some h)
    (heq : h = e.lastHash)
    (hnewer : (mf.getEntry e.path).version > e.localVersion) :
    ((mf.getEntry e.path).contentHash = h →
      (checkConflictEntry hashEntry mf e).state = ConflictState.clean)
    ∧ (¬ (mf.getEntry e.path).contentHash = "" →
        ¬ (mf.getEntry e.path).contentHash = h →
        (checkConflictEntry hashEntry mf e).state = ConflictState.newerInRepo)
    ∧ ((mf.getEntry e.path).contentHash = "" →
        (checkConflictEntry hashEntry mf e).state = ConflictState.clean) := by
  refine ⟨fun hsame => ?_, fun hne hdiff => ?_, fun hempty => ?_⟩
  · simp [checkConflictEntry, hh, hlast, heq, hnewer, hsame]
  · simp [checkConflictEntry, hh, hlast, heq, hnewer, hne, hdiff,
      Ne.symm (heq ▸ hdiff)]
  · simp [checkConflictEntry, hh, hlast, heq, hnewer, hempty]

/-- C1, witness: the amended theorem applied at a concrete entry and
manifest, exercising the NewerInRepo branch. -/
theorem checkConflicts_repoNewer_classification_witness :
    (checkConflictEntry (fun _ => some "h1")
      (Manifest.mk [("~/.vimrc", { version := 2, contentHash := "h2" })])
      { path := "~/.vimrc", localVersion := 1, lastHash := "h1" }).state
      = ConflictState.newerInRepo :=
  (checkConflicts_repoNewer_classification (fun _ => some "h1")
    (Manifest.mk [("~/.vimrc", { version := 2, contentHash := "h2" })])
    { path := "~/.vimrc", localVersion := 1, lastHash := "h1" } "h1"
    (by decide) rfl rfl (by decide)).2.1 (by decide) (by decide)

/-! ## Claim C8: the profile gate before Backup and Restore -/

/-- C8: when some tracked entry is profile-specific and no device profile is
set, the main menu's enter key on the Backup row (cursor 0) and on the
Restore row (cursor 1) defers to the profile editor instead of starting the
engines, and the profile editor refuses to proceed while the supplied
profile (trimmed and lowercased) is still empty — the operation is deferred
until a profile is supplied. -/
theorem profileGate_defers_backup_and_restore (cfg : Config) (e : Entry)
    (he : e ∈ cfg.entries) (hp : e.profileSpecific = true)
    (hd : cfg.deviceProfile = "") :
    mainMenuEnter cfg 0 = MenuAction.deferToProfileEdit
    ∧ mainMenuEnter cfg 1 = MenuAction.deferToProfileEdit
    ∧ ∀ input : String, stringsToLower (stringsTrimSpace input) = "" →
        profileEditEnter cfg input = none := by
  have hneeds : needsProfile cfg = true := by
    simp [needsProfile, hd, List.any_eq_true]
    exact ⟨e, he, hp⟩
  refine ⟨?_, ?_, fun input hin => ?_⟩
  · simp [mainMenuEnter, hneeds]
  · simp [mainMenuEnter, hneeds]
  · simp [profileEditEnter, hin]

/-- C8, witness: the gate theorem at `cfgGateExample`. -/
theorem profileGate_defers_backup_and_restore_witness :
    mainMenuEnter cfgGateExample 0 = MenuAction.deferToProfileEdit
    ∧ mainMenuEnter cfgGateExample 1 = MenuAction.deferToProfileEdit :=
  have h := profileGate_defers_backup_and_restore cfgGateExample
    { path := "~/.config/nvim", profileSpecific := true }
    (by decide) (by decide) (by decide)
  ⟨h.1, h.2.1⟩

/-! ## Claim C9: one terminal progress event per entry, in order -/

theorem backupEntryProgress_fields (copy : Entry → CopyOutcome)
    (hashEntry : Entry → Option String) (describeSkipped : Entry → String)
    (total i : Nat) (e : Entry) :
    (backupEntryProgress copy hashEntry describeSkipped total i e).done = true
    ∧ (backupEntryProgress copy hashEntry describeSkipped total i e).index = i
    ∧ (backupEntryProgress copy hashEntry describeSkipped total i e).entry
        = e := by
  simp only [backupEntryProgress]
  rcases h1 : (copy e).err with _ | e1 <;> simp only [h1]
  · rcases h2 : hashEntry e with _ | hh <;> simp only [h2] <;> split <;> simp
  · simp

/-- C9: a backup run and a restore run each produce exactly as many progress
events as submitted entries, and the i-th event is terminal (`Done = true`),
carries `Index = i`, and refers to the i-th submitted entry. -/
theorem run_terminal_events_in_order (copy : Entry → CopyOutcome)
    (hashEntry : Entry → Option String) (describeSkipped : Entry → String)
    (rcopy : Entry → RestoreOutcome) (entries : List Entry) (i : Nat)
    (hi : i < entries.length) :
    (backupRun copy hashEntry describeSkipped entries).length
      = entries.length
    ∧ (restoreRun rcopy entries).length = entries.length
    ∧ (∀ hb : i < (backupRun copy hashEntry describeSkipped entries).length,
        ((backupRun copy hashEntry describeSkipped entries).get
            ⟨i, hb⟩).done = true
        ∧ ((backupRun copy hashEntry describeSkipped entries).get
            ⟨i, hb⟩).index = i
        ∧ ((backupRun copy hashEntry describeSkipped entries).get
            ⟨i, hb⟩).entry = entries.get ⟨i, hi⟩)
    ∧ (∀ hr : i < (restoreRun rcopy entries).length,
        ((restoreRun rcopy entries).get ⟨i, hr⟩).done = true
        ∧ ((restoreRun rcopy entries).get ⟨i, hr⟩).index = i
        ∧ ((restoreRun rcopy entries).get ⟨i, hr⟩).entry
            = entries.get ⟨i, hi⟩) := by
  refine ⟨?_, ?_, fun hb => ?_, fun hr => ?_⟩
  · simp [backupRun]
  · simp [restoreRun]
  · have hget : (backupRun copy hashEntry describeSkipped entries).get ⟨i, hb⟩
        = backupEntryProgress copy hashEntry describeSkipped entries.length i
            (entries.get ⟨i, hi⟩) := by
      simp [backupRun, List.get_eq_getElem]
    rw [hget]
    exact backupEntryProgress_fields copy hashEntry describeSkipped
      entries.length i (entries.get ⟨i, hi⟩)
  · simp [restoreRun, List.get_eq_getElem]

/-- C9, witness: a two-entry batch. -/
theorem run_terminal_events_in_order_witness :
    (backupRun (fun _ => {}) (fun _ => none) (fun _ => "")
        [{ path := "~/a" }, { path := "~/b" }]).length = 2
    ∧ ((restoreRun (fun _ => {})
        [{ path := "~/a" }, { path := "~/b" }]).get ⟨1, by decide⟩).index
        = 1 :=
  have h := run_terminal_events_in_order (fun _ => {}) (fun _ => none)
    (fun _ => "") (fun _ => {}) [{ path := "~/a" }, { path := "~/b" }] 1
    (by decide)
  ⟨h.1, (h.2.2.2 (by decide)).2.1⟩

/-! ## Claim C10: a failed post-copy hash silently records an empty hash -/

/-- C10: when an entry's copy completes without fatal error but the post-copy
hash of the source fails, the terminal progress event still has `Err = nil`
and an empty `ContentHash`; the caller's bookkeeping then stores that empty
string as the entry's `LastHash` and leaves/writes an empty string as the
manifest record's content hash under the entry's storage key. -/
theorem failedHash_records_empty_hash (copy : Entry → CopyOutcome)
    (hashEntry : Entry → Option String) (describeSkipped : Entry → String)
    (total i : Nat) (e : Entry) (profile : String) (now : Nat) (host : String)
    (mf : Manifest) (hok : (copy e).err = none) (hhash : hashEntry e = none) :
    (backupEntryProgress copy hashEntry describeSkipped total i e).err = none
    ∧ (backupEntryProgress copy hashEntry describeSkipped total i e).contentHash
        = ""
    ∧ (((processBackupResults profile now host [e]
          [{ done := true, err := none, contentHash := "" }] mf).1.mf.getEntry
          (ManifestKey e profile)).contentHash = ""
    ∧ ∀ e' ∈ (processBackupResults profile now host [e]
          [{ done := true, err := none, contentHash := "" }] mf).1.entries,
        e'.lastHash = "") := by
  refine ⟨?_, ?_, ?_, ?_⟩
  · simp only [backupEntryProgress, hok]
    rcases h2 : hashEntry e with _ | hh <;> simp only [h2] <;> split <;> simp
  · simp only [backupEntryProgress, hok, hhash]
    split <;> simp
  · simp only [processBackupResults, processBackupAux, List.zip_cons_cons,
      List.zip_nil_right]
    simp only [Manifest.bumpVersion]
    by_cases hc : (mf.getEntry (ManifestKey e profile)).contentHash = ""
    · simp [hc]
    · simp [hc, Manifest.getEntry_setEntry_self]
  · intro e' he'
    simp only [processBackupResults, processBackupAux, List.zip_cons_cons,
      List.zip_nil_right] at he'
    simp at he'
    simp [he']

/-- C10, witness. -/
theorem failedHash_records_empty_hash_witness :
    (backupEntryProgress (fun _ => {}) (fun _ => none) (fun _ => "") 1 0
      { path := "~/a" }).contentHash = ""
    ∧ (((processBackupResults "work" 7 "host" [{ path := "~/a" }]
          [{ done := true, err := none, contentHash := "" }]
          (Manifest.mk [("shared/~/a",
            { version := 3, contentHash := "h" })])).1.mf.getEntry
          (ManifestKey { path := "~/a" } "work")).contentHash = "") :=
  have h := failedHash_records_empty_hash (fun _ => {}) (fun _ => none)
    (fun _ => "") 1 0 { path := "~/a" } "work" 7 "host"
    (Manifest.mk [("shared/~/a", { version := 3, contentHash := "h" })])
    (by decide) rfl
  ⟨h.2.1, h.2.2.1⟩

/-! ## Claim C3: a second no-change backup bumps nothing and commits nothing -/

/-- C3: backing an entry up and then backing it up again with unchanged
content (the second run reports the same content hash) leaves the manifest
untouched the second time: the version under the entry's key does not
increase again, the changed-count of the second run is zero, and no
commit+push is triggered. -/
theorem secondBackup_noChange_noBump_noCommit (profile : String)
    (now₁ now₂ : Nat) (host₁ host₂ : String) (e : Entry) (mf : Manifest)
    (h : String) (e₁ : Entry)
    (he₁ : e₁ ∈ (processBackupResults profile now₁ host₁ [e]
      [{ done := true, err := none, contentHash := h }] mf).1.entries) :
    (processBackupResults profile now₂ host₂ [e₁]
        [{ done := true, err := none, contentHash := h }]
        (processBackupResults profile now₁ host₁ [e]
          [{ done := true, err := none, contentHash := h }] mf).1.mf).1.mf
      = (processBackupResults profile now₁ host₁ [e]
          [{ done := true, err := none, contentHash := h }] mf).1.mf
    ∧ (processBackupResults profile now₂ host₂ [e₁]
        [{ done := true, err := none, contentHash := h }]
        (processBackupResults profile now₁ host₁ [e]
          [{ done := true, err := none, contentHash := h }] mf).1.mf).1.changed
      = 0
    ∧ (processBackupResults profile now₂ host₂ [e₁]
        [{ done := true, err := none, contentHash := h }]
        (processBackupResults profile now₁ host₁ [e]
          [{ done := true, err := none, contentHash := h }] mf).1.mf).2
      = false := by
  -- The first run's entry list is the singleton updated entry, which keeps
  -- the path and profile flag of `e`, so both runs use the same manifest key.
  have hkey : ManifestKey e₁ profile = ManifestKey e profile := by
    have he₁' : e₁ = { e with
        localVersion := ((mf.bumpVersion (ManifestKey e profile) h now₁
          host₁).1).getVersion (ManifestKey e profile),
        lastHash := h } := by
      simpa [processBackupResults, processBackupAux] using he₁
    rw [he₁']
    simp [ManifestKey]
  -- After the first run, `h` is the hash stored under that key, so the
  -- second bump is a no-op.
  have hstored : (((mf.bumpVersion (ManifestKey e profile) h now₁
      host₁).1).getEntry (ManifestKey e₁ profile)).contentHash = h := by
    rw [hkey]
    exact Manifest.contentHash_bumpVersion_self mf (ManifestKey e profile) h
      now₁ host₁
  have hnoop := Manifest.bumpVersion_eq_of_contentHash_eq _
    (ManifestKey e₁ profile) h now₂ host₂ hstored
  refine ⟨?_, ?_, ?_⟩ <;>
    simp [processBackupResults, processBackupAux, hnoop]

/-- C3, witness: first and second backup of one entry with identical
content. -/
theorem secondBackup_noChange_noBump_noCommit_witness :
    (processBackupResults "work" 8 "host" [entryAfterFirstBackup]
      [{ done := true, err := none, contentHash := "h" }]
      (processBackupResults "work" 7 "host" [{ path := "~/a" }]
        [{ done := true, err := none, contentHash := "h" }]
        (Manifest.mk [])).1.mf).1.changed = 0 :=
  (secondBackup_noChange_noBump_noCommit "work" 7 8 "host" "host"
    { path := "~/a" } (Manifest.mk []) "h" entryAfterFirstBackup
    (by decide)).2.1

/-! ## Claim C2: the analyzer reads the record under the routed storage key -/

/-- C2: the conflict analyzer obtains `repo_hash` (and the version it
compares) from the manifest record at the entry's routed storage key
`ManifestKey e profile`: its result does not depend on the manifest except
through that one record, its reported `RepoHash` is that record's content
hash, and after a backup stores a (changed) hash under the very same key —
`handleBackupProgress` bumps at `storage.ManifestKey(e, profile)` — the
analyzer reads back exactly the stored hash. -/
theorem checkConflictEntryCur_repoHash (hashEntry : Entry → Option String)
    (mf : Manifest) (profile : String) (e : Entry) :
    (checkConflictEntryCur hashEntry mf profile e).repoHash
      = (mf.getEntry (ManifestKey e profile)).contentHash := by
  simp only [checkConflictEntryCur]
  rcases hashEntry e with _ | lh
  · rfl
  · repeat' split
    all_goals rfl

theorem analyzer_uses_routed_storage_key (hashEntry : Entry → Option String)
    (mf mf' : Manifest) (profile : String) (e : Entry) (h : String)
    (now : Nat) (host : String)
    (hagree : mf.getEntry (ManifestKey e profile)
      = mf'.getEntry (ManifestKey e profile)) :
    (checkConflictEntryCur hashEntry mf profile e).repoHash
      = (mf.getEntry (ManifestKey e profile)).contentHash
    ∧ checkConflictEntryCur hashEntry mf profile e
      = checkConflictEntryCur hashEntry mf' profile e
    ∧ (checkConflictEntryCur hashEntry
        ((mf.bumpVersion (ManifestKey e profile) h now host).1) profile
        e).repoHash
      = (((mf.bumpVersion (ManifestKey e profile) h now host).1).getEntry
        (ManifestKey e profile)).contentHash := by
  refine ⟨?_, ?_, ?_⟩
  · exact checkConflictEntryCur_repoHash hashEntry mf profile e
  · simp only [checkConflictEntryCur, hagree]
  · exact checkConflictEntryCur_repoHash hashEntry _ profile e

/-- C2, witness: a record stored by a backup under the routed key
`profiles/work/~/.vimrc` is the one the analyzer reads back. -/
theorem analyzer_uses_routed_storage_key_witness :
    (checkConflictEntryCur (fun _ => some "l")
      (((Manifest.mk []).bumpVersion
        (ManifestKey { path := "~/.vimrc", profileSpecific := true } "Work")
        "h9" 5 "box").1) "Work"
      { path := "~/.vimrc", profileSpecific := true }).repoHash = "h9" :=
  have hw := (analyzer_uses_routed_storage_key (fun _ => some "l")
    (Manifest.mk []) (Manifest.mk []) "Work"
    { path := "~/.vimrc", profileSpecific := true } "h9" 5 "box" rfl).2.2
  hw.trans (by decide)

/-! ## Lemmas about the path algebra, used for the storage-routing claims -/

theorem stringDataEq {a b : String} (h : a.data = b.data) : a = b := by
  cases a; cases b; exact congrArg String.mk h

theorem splitSlashAux_no_slash (c : List Char) (hc : '/' ∉ c)
    (acc : List Char) : splitSlashAux acc c = [acc.reverse ++ c] := by
  induction c generalizing acc with
  | nil => simp [splitSlashAux]
  | cons ch rest ih =>
    have hch : ¬ ch = '/' := fun hh => hc (hh ▸ List.mem_cons_self ch rest)
    have hrest : '/' ∉ rest := fun hh => hc (List.mem_cons_of_mem ch hh)
    simp [splitSlashAux, hch, ih hrest]

theorem splitSlashAux_append (c t : List Char) (hc : '/' ∉ c)
    (acc : List Char) :
    splitSlashAux acc (c ++ '/' :: t)
      = (acc.reverse ++ c) :: splitSlashAux [] t := by
  induction c generalizing acc with
  | nil => simp [splitSlashAux]
  | cons ch rest ih =>
    have hch : ¬ ch = '/' := fun hh => hc (hh ▸ List.mem_cons_self ch rest)
    have hrest : '/' ∉ rest := fun hh => hc (List.mem_cons_of_mem ch hh)
    simp [splitSlashAux, hch, ih hrest]

theorem joinComps_cons (c : List Char) (cs : List (List Char))
    (hne : ¬ cs = []) : joinComps (c :: cs) = c ++ '/' :: joinComps cs := by
  cases cs with
  | nil => exact absurd rfl hne
  | cons c' cs' => rfl

theorem splitSlash_joinComps (cs : List (List Char)) (hne : ¬ cs = [])
    (hns : ∀ c ∈ cs, '/' ∉ c) : splitSlash (joinComps cs) = cs := by
  induction cs with
  | nil => exact absurd rfl hne
  | cons c rest ih =>
    cases rest with
    | nil =>
      simpa [splitSlash, joinComps] using
        splitSlashAux_no_slash c (hns c (List.mem_cons_self c [])) []
    | cons c' rest' =>
      rw [joinComps_cons c (c' :: rest') (by simp)]
      unfold splitSlash
      rw [splitSlashAux_append c (joinComps (c' :: rest'))
        (hns c (List.mem_cons_self _ _)) []]
      have := ih (by simp) (fun x hx => hns x (List.mem_cons_of_mem c hx))
      simpa [splitSlash] using this

theorem cleanCompsAux_all_clean (cs : List (List Char))
    (h : ∀ c ∈ cs, CleanComp c) (rooted : Bool) (out : List (List Char)) :
    cleanCompsAux rooted out cs = out.reverse ++ cs := by
  induction cs generalizing out with
  | nil => simp [cleanCompsAux]
  | cons c rest ih =>
    obtain ⟨h1, _, h3, h4⟩ := h c (List.mem_cons_self c rest)
    have hrest := fun x hx => h x (List.mem_cons_of_mem c hx)
    simp [cleanCompsAux, h1, h3, h4, ih hrest]

theorem cleanComps_all_clean (cs : List (List Char))
    (h : ∀ c ∈ cs, CleanComp c) (rooted : Bool) :
    cleanComps rooted cs = cs := by
  simpa using cleanCompsAux_all_clean cs h rooted []

theorem joinComps_ne_nil (c : List Char) (cs : List (List Char))
    (hc : ¬ c = []) : ¬ joinComps (c :: cs) = [] := by
  cases cs with
  | nil => simpa [joinComps]
  | cons c' cs' => simp [joinComps_cons c (c' :: cs') (by simp), hc]

theorem cleanComp_no_slash {c : List Char} (h : CleanComp c) : '/' ∉ c :=
  h.2.1

theorem cleanComp_head_ne_slash {c : List Char} (h : CleanComp c) :
    ∀ ch rest, c = ch :: rest → ¬ ch = '/' := by
  intro ch rest hc he
  exact h.2.1 (by rw [hc, he]; exact List.mem_cons_self _ _)

/-- A relative path whose components are all clean is a fixed point of
`filepath.Clean`. -/
theorem pclean_fixed_rel (cs : List (List Char)) (hne : ¬ cs = [])
    (hcl : ∀ c ∈ cs, CleanComp c) :
    pclean ⟨joinComps cs⟩ = ⟨joinComps cs⟩ := by
  obtain ⟨c, rest, rfl⟩ : ∃ c rest, cs = c :: rest := by
    cases cs with
    | nil => exact absurd rfl hne
    | cons c rest => exact ⟨c, rest, rfl⟩
  have hcc := hcl c (List.mem_cons_self c rest)
  obtain ⟨ch, ctail, hc⟩ : ∃ ch ctail, c = ch :: ctail := by
    cases c with
    | nil => exact absurd rfl hcc.1
    | cons ch ctail => exact ⟨ch, ctail, rfl⟩
  have hdata : (String.mk (joinComps (c :: rest))).data
      = joinComps (c :: rest) := rfl
  have hhead : ∃ t, joinComps (c :: rest) = ch :: t := by
    cases rest with
    | nil => exact ⟨ctail, by simp [joinComps, hc]⟩
    | cons c' rest' =>
      exact ⟨ctail ++ '/' :: joinComps (c' :: rest'),
        by rw [joinComps_cons c (c' :: rest') (by simp), hc]; rfl⟩
  obtain ⟨t, ht⟩ := hhead
  have hns : ∀ x ∈ c :: rest, '/' ∉ x := fun x hx => (hcl x hx).2.1
  have hchs : ¬ ch = '/' := cleanComp_head_ne_slash hcc ch ctail hc
  unfold pclean
  rw [hdata, ht]
  simp only [hchs, if_false]
  rw [← ht, splitSlash_joinComps (c :: rest) (by simp) hns,
    cleanComps_all_clean (c :: rest) hcl]
  simp [joinComps_ne_nil c rest hcc.1, hchs]

/-- An absolute path with clean components is a fixed point of
`filepath.Clean`. -/
theorem pclean_fixed_abs (cs : List (List Char)) (hne : ¬ cs = [])
    (hcl : ∀ c ∈ cs, CleanComp c) :
    pclean ⟨'/' :: joinComps cs⟩ = ⟨'/' :: joinComps cs⟩ := by
  have hns : ∀ x ∈ cs, '/' ∉ x := fun x hx => (hcl x hx).2.1
  unfold pclean
  simp only
  have hsplit : splitSlash ('/' :: joinComps cs) = [] :: cs := by
    show splitSlashAux [] ('/' :: joinComps cs) = [] :: cs
    simp [splitSlashAux]
    exact splitSlash_joinComps cs hne hns
  rw [hsplit]
  have : cleanComps true ([] :: cs) = cs := by
    unfold cleanComps
    simp [cleanCompsAux]
    simpa using cleanCompsAux_all_clean cs hcl true []
  simp [this]

theorem joinComps_append (l₁ l₂ : List (List Char)) (h₁ : ¬ l₁ = [])
    (h₂ : ¬ l₂ = []) :
    joinComps (l₁ ++ l₂) = joinComps l₁ ++ '/' :: joinComps l₂ := by
  induction l₁ with
  | nil => exact absurd rfl h₁
  | cons c rest ih =>
    cases rest with
    | nil =>
      rw [List.singleton_append, joinComps_cons c l₂ h₂]
      rfl
    | cons c' rest' =>
      rw [List.cons_append, joinComps_cons c ((c' :: rest') ++ l₂) (by simp),
        joinComps_cons c (c' :: rest') (by simp), ih (by simp)]
      simp

theorem pjoin_two (a b : String) (ha : ¬ a = "") :
    pjoin [a, b] = pclean ⟨a.data ++ '/' :: b.data⟩ := by
  unfold pjoin
  simp [ha, joinComps]

theorem pjoin_three (a b c : String) (ha : ¬ a = "") :
    pjoin [a, b, c] = pclean ⟨a.data ++ '/' :: (b.data ++ '/' :: c.data)⟩ := by
  unfold pjoin
  simp [ha, joinComps]

theorem dropCommon_prefix (b r : List (List Char)) :
    dropCommon b (b ++ r) = ([], r) := by
  induction b with
  | nil =>
    cases r with
    | nil => rfl
    | cons x xs => rfl
  | cons x xs ih => simpa [dropCommon] using ih

/-- `filepath.Rel home (home ++ "/" ++ rest)` recovers `rest` for an
absolute clean `home` and relative clean `rest`. -/
theorem prel_home_extension (B R : List (List Char)) (hBne : ¬ B = [])
    (hB : ∀ c ∈ B, CleanComp c) (hRne : ¬ R = [])
    (hR : ∀ c ∈ R, CleanComp c) :
    prel ⟨'/' :: joinComps B⟩ ⟨'/' :: joinComps (B ++ R)⟩
      = some ⟨joinComps R⟩ := by
  have hBRcl : ∀ c ∈ B ++ R, CleanComp c := by
    intro c hc
    rcases List.mem_append.mp hc with h | h
    · exact hB c h
    · exact hR c h
  have hBRne : ¬ B ++ R = [] := by simp [hBne]
  have hclb := pclean_fixed_abs B hBne hB
  have hclt := pclean_fixed_abs (B ++ R) hBRne hBRcl
  have hlen : ¬ (String.mk ('/' :: joinComps B))
      = ⟨'/' :: joinComps (B ++ R)⟩ := by
    intro heq
    have : joinComps B = joinComps (B ++ R) := by
      simpa using congrArg String.data heq
    rw [joinComps_append B R hBne hRne] at this
    have hl := congrArg List.length this
    simp at hl
  have hsplitB : splitSlash ('/' :: joinComps B) = [] :: B := by
    show splitSlashAux [] ('/' :: joinComps B) = [] :: B
    simp [splitSlashAux]
    exact splitSlash_joinComps B hBne (fun x hx => (hB x hx).2.1)
  have hsplitBR : splitSlash ('/' :: joinComps (B ++ R)) = [] :: (B ++ R) := by
    show splitSlashAux [] ('/' :: joinComps (B ++ R)) = [] :: (B ++ R)
    simp [splitSlashAux]
    exact splitSlash_joinComps (B ++ R) hBRne
      (fun x hx => (hBRcl x hx).2.1)
  have hccB : cleanComps true ([] :: B) = B := by
    unfold cleanComps
    simp [cleanCompsAux]
    simpa using cleanCompsAux_all_clean B hB true []
  have hccBR : cleanComps true ([] :: (B ++ R)) = B ++ R := by
    unfold cleanComps
    simp [cleanCompsAux]
    simpa using cleanCompsAux_all_clean (B ++ R) hBRcl true []
  have hdotB : ¬ (String.mk ('/' :: joinComps B)) = "." := by
    intro heq
    have := congrArg String.data heq
    simp [show (".").data = ['.'] from rfl] at this
  have hdotBR : ¬ (String.mk ('/' :: joinComps (B ++ R))) = "." := by
    intro heq
    have := congrArg String.data heq
    simp [show (".").data = ['.'] from rfl] at this
  unfold prel
  rw [hclb, hclt]
  simp only [hlen, if_false]
  have habs : (String.mk ('/' :: joinComps B)).data.head? = some '/' := rfl
  have habs' : (String.mk ('/' :: joinComps (B ++ R))).data.head?
      = some '/' := rfl
  simp only [habs, habs', ne_eq, not_true_eq_false, if_false, hdotB, hdotBR]
  simp only [decide_True]
  rw [hsplitB, hsplitBR, hccB, hccBR, dropCommon_prefix B R]
  have hhead : (([] : List (List Char))).head? = none := rfl
  simp

theorem expandHome_tilde (B R : List (List Char)) (hBne : ¬ B = [])
    (hB : ∀ c ∈ B, CleanComp c) (hRne : ¬ R = [])
    (hR : ∀ c ∈ R, CleanComp c) :
    expandHome ⟨'/' :: joinComps B⟩ ⟨'~' :: '/' :: joinComps R⟩
      = ⟨'/' :: joinComps (B ++ R)⟩ := by
  have hBRcl : ∀ c ∈ B ++ R, CleanComp c := by
    intro c hc
    rcases List.mem_append.mp hc with h | h
    · exact hB c h
    · exact hR c h
  unfold expandHome
  have hpre : hasTildePrefix ⟨'~' :: '/' :: joinComps R⟩ = true := rfl
  rw [hpre, if_pos rfl]
  have hdrop : dropTilde ⟨'~' :: '/' :: joinComps R⟩ = ⟨joinComps R⟩ := rfl
  rw [hdrop, pjoin_two _ _ (by intro h; cases congrArg String.data h)]
  have : (String.mk ('/' :: joinComps B)).data ++ '/'
      :: (String.mk (joinComps R)).data = '/' :: joinComps (B ++ R) := by
    show '/' :: joinComps B ++ '/' :: joinComps R = '/' :: joinComps (B ++ R)
    rw [joinComps_append B R hBne hRne]
    simp
  rw [this]
  exact pclean_fixed_abs (B ++ R) (by simp [hBne]) hBRcl

theorem homeRelative_tilde (B R : List (List Char)) (hBne : ¬ B = [])
    (hB : ∀ c ∈ B, CleanComp c) (hRne : ¬ R = [])
    (hR : ∀ c ∈ R, CleanComp c) :
    homeRelative ⟨'/' :: joinComps B⟩ ⟨'~' :: '/' :: joinComps R⟩
      = ⟨joinComps R⟩ := by
  simp only [homeRelative]
  rw [expandHome_tilde B R hBne hB hRne hR,
    prel_home_extension B R hBne hB hRne hR]

theorem RepoDir_shared_form (B R : List (List Char)) (e : Entry) (p : String)
    (hBne : ¬ B = []) (hB : ∀ c ∈ B, CleanComp c) (hRne : ¬ R = [])
    (hR : ∀ c ∈ R, CleanComp c)
    (hpath : e.path = ⟨'~' :: '/' :: joinComps R⟩)
    (hcond : ¬ (e.profileSpecific = true ∧ ¬ p = "")) :
    RepoDir ⟨'/' :: joinComps B⟩ e p = "shared/" ++ ⟨joinComps R⟩ := by
  have hcl : ∀ c ∈ "shared".data :: R, CleanComp c := by
    intro c hc
    rcases List.mem_cons.mp hc with rfl | h
    · decide
    · exact hR c h
  unfold RepoDir
  rw [hpath, homeRelative_tilde B R hBne hB hRne hR, if_neg hcond,
    pjoin_two _ _ (by decide)]
  have hdata : ("shared" : String).data ++ '/'
      :: (String.mk (joinComps R)).data = joinComps ("shared".data :: R) := by
    rw [joinComps_cons _ R hRne]
  rw [hdata, pclean_fixed_rel ("shared".data :: R) (by simp) hcl]
  refine stringDataEq ?_
  rw [joinComps_cons _ R hRne]
  rfl

theorem RepoDir_profile_form (B R : List (List Char)) (e : Entry)
    (p : String) (hBne : ¬ B = []) (hB : ∀ c ∈ B, CleanComp c)
    (hRne : ¬ R = []) (hR : ∀ c ∈ R, CleanComp c)
    (hpath : e.path = ⟨'~' :: '/' :: joinComps R⟩)
    (hcond : e.profileSpecific = true ∧ ¬ p = "")
    (hlp : CleanComp (stringsToLower p).data) :
    RepoDir ⟨'/' :: joinComps B⟩ e p
      = "profiles/" ++ stringsToLower p ++ "/" ++ ⟨joinComps R⟩ := by
  have hcl : ∀ c ∈ "profiles".data :: (stringsToLower p).data :: R,
      CleanComp c := by
    intro c hc
    rcases List.mem_cons.mp hc with rfl | h
    · decide
    · rcases List.mem_cons.mp h with rfl | h'
      · exact hlp
      · exact hR c h'
  unfold RepoDir
  rw [hpath, homeRelative_tilde B R hBne hB hRne hR, if_pos hcond,
    pjoin_three _ _ _ (by decide)]
  have hdata : ("profiles" : String).data ++ '/'
      :: ((stringsToLower p).data ++ '/' :: (String.mk (joinComps R)).data)
      = joinComps ("profiles".data :: (stringsToLower p).data :: R) := by
    rw [joinComps_cons _ ((stringsToLower p).data :: R) (by simp),
      joinComps_cons _ R hRne]
  rw [hdata,
    pclean_fixed_rel ("profiles".data :: (stringsToLower p).data :: R)
      (by simp) hcl]
  refine stringDataEq ?_
  rw [joinComps_cons _ ((stringsToLower p).data :: R) (by simp),
    joinComps_cons _ R hRne]
  simp [List.append_assoc]

theorem ManifestKey_shared_form (e : Entry) (p : String)
    (hcond : ¬ (e.profileSpecific = true ∧ ¬ p = "")) :
    ManifestKey e p = "shared/" ++ e.path := by
  unfold ManifestKey
  rw [if_neg hcond]

theorem ManifestKey_profile_form (e : Entry) (p : String)
    (hcond : e.profileSpecific = true ∧ ¬ p = "") :
    ManifestKey e p = "profiles/" ++ stringsToLower p ++ "/" ++ e.path := by
  unfold ManifestKey
  rw [if_pos hcond]

/-! ## Claim C4: manifest key vs repo directory -/

/-- C4, counterexample. The claim says the manifest key is
`shared/<home-relative-path>`, built from the same home-relative form of the
path as the repo directory. For the entry path `~/.vimrc` under home
`/home/u`, the repo directory is `shared/.vimrc` but `ManifestKey`
concatenates the raw stored path, yielding `shared/~/.vimrc` — not the
home-relative form, and not the repo directory's path component. -/
theorem manifestKey_homeRelative_counterexample :
    RepoDir "/home/u" { path := "~/.vimrc" } "" = "shared/.vimrc"
    ∧ ManifestKey { path := "~/.vimrc" } "" = "shared/~/.vimrc"
    ∧ ¬ ManifestKey { path := "~/.vimrc" } ""
        = "shared/" ++ homeRelative "/home/u" "~/.vimrc" := by
  decide

/-- C4 (amended): manifest key and repo directory agree on the
shared-vs-profile routing segment (including the lowercased profile), but
they are built from different forms of the entry's path: the repo directory
uses the home-relative form (the `~/` prefix resolved away) while the
manifest key concatenates the raw stored `~/`-prefixed path, so the two
strings never coincide. Stated for a well-formed absolute home `/B₁/…/Bₙ`,
a well-formed entry path `~/R₁/…/Rₘ`, and (in the profile case) a
device profile whose lowercase form is a single clean path component. -/
theorem repoDir_manifestKey_routing (B R : List (List Char)) (e : Entry)
    (p : String) (hBne : ¬ B = []) (hB : ∀ c ∈ B, CleanComp c)
    (hRne : ¬ R = []) (hR : ∀ c ∈ R, CleanComp c)
    (hpath : e.path = ⟨'~' :: '/' :: joinComps R⟩) :
    homeRelative ⟨'/' :: joinComps B⟩ e.path = ⟨joinComps R⟩
    ∧ (¬ (e.profileSpecific = true ∧ ¬ p = "") →
        RepoDir ⟨'/' :: joinComps B⟩ e p = "shared/" ++ ⟨joinComps R⟩
        ∧ ManifestKey e p = "shared/" ++ e.path
        ∧ ¬ RepoDir ⟨'/' :: joinComps B⟩ e p = ManifestKey e p)
    ∧ ((e.profileSpecific = true ∧ ¬ p = "") →
        CleanComp (stringsToLower p).data →
        RepoDir ⟨'/' :: joinComps B⟩ e p
          = "profiles/" ++ stringsToLower p ++ "/" ++ ⟨joinComps R⟩
        ∧ ManifestKey e p
          = "profiles/" ++ stringsToLower p ++ "/" ++ e.path
        ∧ ¬ RepoDir ⟨'/' :: joinComps B⟩ e p = ManifestKey e p) := by
  refine ⟨?_, fun hcond => ?_, fun hcond hlp => ?_⟩
  · rw [hpath]
    exact homeRelative_tilde B R hBne hB hRne hR
  · have hrd := RepoDir_shared_form B R e p hBne hB hRne hR hpath hcond
    have hmk := ManifestKey_shared_form e p hcond
    refine ⟨hrd, hmk, fun heq => ?_⟩
    rw [hrd, hmk, hpath] at heq
    have hl := congrArg (fun s => s.data.length) heq
    simp at hl
  · have hrd := RepoDir_profile_form B R e p hBne hB hRne hR hpath hcond hlp
    have hmk := ManifestKey_profile_form e p hcond
    refine ⟨hrd, hmk, fun heq => ?_⟩
    rw [hrd, hmk, hpath] at heq
    have hl := congrArg (fun s => s.data.length) heq
    simp at hl

/-- C4, witness: home `/home/u`, entry `~/.config/nvim`, profile `Work`. -/
theorem repoDir_manifestKey_routing_witness :
    RepoDir "/home/u" { path := "~/.config/nvim", profileSpecific := true }
        "Work" = "profiles/work/.config/nvim"
    ∧ ManifestKey { path := "~/.config/nvim", profileSpecific := true }
        "Work" = "profiles/work/~/.config/nvim" :=
  have h := (repoDir_manifestKey_routing
    ["home".data, "u".data] [".config".data, "nvim".data]
    { path := "~/.config/nvim", profileSpecific := true } "Work"
    (by decide) (by decide) (by decide) (by decide) (by decide)).2.2
    ⟨rfl, by decide⟩ (by decide)
  ⟨h.1.trans (by decide), h.2.1.trans (by decide)⟩

/-! ## Claim C5: shared and profile variants must not collide -/

/-- C5, counterexample. The claim quantifies over *every* device profile
value. With the profile unset (`""`), a profile-specific entry falls back
into the `shared` branch of both `RepoDir` and `ManifestKey`, so the two
variants of `~/.vimrc` collide on both the storage location and the
manifest key. -/
theorem routing_no_collision_counterexample :
    RepoDir "/home/u" { path := "~/.vimrc", profileSpecific := false } ""
      = RepoDir "/home/u" { path := "~/.vimrc", profileSpecific := true } ""
    ∧ ManifestKey { path := "~/.vimrc", profileSpecific := false } ""
      = ManifestKey { path := "~/.vimrc", profileSpecific := true } "" := by
  decide

/-- C5 (amended): for every *non-empty* device profile whose lowercase form
is a single clean path component, and every well-formed `~/`-prefixed entry
path, the shared and profile-specific variants of an entry map to distinct
repo directories and distinct manifest keys; with an empty profile both
variants collapse into `shared/`. -/
theorem routing_no_collision (B R : List (List Char)) (e : Entry)
    (p : String) (hBne : ¬ B = []) (hB : ∀ c ∈ B, CleanComp c)
    (hRne : ¬ R = []) (hR : ∀ c ∈ R, CleanComp c)
    (hpath : e.path = ⟨'~' :: '/' :: joinComps R⟩) (hp : ¬ p = "")
    (hlp : CleanComp (stringsToLower p).data) :
    ¬ RepoDir ⟨'/' :: joinComps B⟩ { e with profileSpecific := false } p
      = RepoDir ⟨'/' :: joinComps B⟩ { e with profileSpecific := true } p
    ∧ ¬ ManifestKey { e with profileSpecific := false } p
      = ManifestKey { e with profileSpecific := true } p := by
  have hrd₁ := RepoDir_shared_form B R { e with profileSpecific := false } p
    hBne hB hRne hR hpath (by simp)
  have hrd₂ := RepoDir_profile_form B R { e with profileSpecific := true } p
    hBne hB hRne hR hpath ⟨rfl, hp⟩ hlp
  have hmk₁ := ManifestKey_shared_form { e with profileSpecific := false } p
    (by simp)
  have hmk₂ := ManifestKey_profile_form { e with profileSpecific := true } p
    ⟨rfl, hp⟩
  refine ⟨fun heq => ?_, fun heq => ?_⟩
  · rw [hrd₁, hrd₂] at heq
    have := congrArg String.data heq
    simp at this
  · rw [hmk₁, hmk₂] at heq
    have := congrArg String.data heq
    simp at this

/-- C5, witness: the two variants of `~/.config/nvim` under profile
`Work`. -/
theorem routing_no_collision_witness :
    ¬ ManifestKey { path := "~/.config/nvim", profileSpecific := false }
        "Work"
      = ManifestKey { path := "~/.config/nvim", profileSpecific := true }
        "Work" :=
  (routing_no_collision ["home".data, "u".data] [".config".data, "nvim".data]
    { path := "~/.config/nvim" } "Work" (by decide) (by decide) (by decide)
    (by decide) (by decide) (by decide) (by decide)).2

/-! ## Lemmas about the directory hasher -/

theorem sortStrings_eq_of_perm {l l' : List String} (h : l.Perm l') :
    sortStrings l = sortStrings l' := by
  refine List.eq_of_perm_of_sorted (r := (· ≤ · : String → String → Prop))
    ?_ ?_ ?_
  · exact (List.perm_insertionSort _ l).trans
      (h.trans (List.perm_insertionSort _ l').symm)
  · exact List.sorted_insertionSort _ l
  · exact List.sorted_insertionSort _ l'

theorem hashDirStream_eq_of_perm (root : String)
    (readFile readLink : String → Option String)
    {files files' symlinks symlinks' : List String}
    (hf : files.Perm files') (hs : symlinks.Perm symlinks') :
    hashDirStream root readFile readLink files symlinks
      = hashDirStream root readFile readLink files' symlinks' := by
  unfold hashDirStream
  rw [sortStrings_eq_of_perm hf, sortStrings_eq_of_perm hs]

theorem reverseEnum_name (t : FsNode) : (reverseEnum t).name = t.name := by
  cases t <;> rfl

theorem collectChildren_append (p : String) (xs ys : List FsNode) :
    collectNode.collectChildren p (xs ++ ys)
      = ((collectNode.collectChildren p xs).1
          ++ (collectNode.collectChildren p ys).1,
        (collectNode.collectChildren p xs).2
          ++ (collectNode.collectChildren p ys).2) := by
  induction xs with
  | nil => simp [collectNode.collectChildren]
  | cons c cs ih => simp [collectNode.collectChildren, ih]

mutual

theorem collect_reverseEnum (t : FsNode) (p : String) :
    (collectNode p (reverseEnum t)).1.Perm (collectNode p t).1
    ∧ (collectNode p (reverseEnum t)).2.Perm (collectNode p t).2 := by
  cases t with
  | file n => exact ⟨List.Perm.refl _, List.Perm.refl _⟩
  | symlink n => exact ⟨List.Perm.refl _, List.Perm.refl _⟩
  | special n => exact ⟨List.Perm.refl _, List.Perm.refl _⟩
  | dir n er cs =>
    simp only [reverseEnum, collectNode]
    by_cases hg : n = ".git" ∨ er = true
    · simp [hg]
    · simp only [hg, if_false]
      exact collectChildren_reverseEnumList cs p

theorem collectChildren_reverseEnumList (cs : List FsNode) (p : String) :
    (collectNode.collectChildren p
        ((reverseEnum.reverseEnumList cs).reverse)).1.Perm
      (collectNode.collectChildren p cs).1
    ∧ (collectNode.collectChildren p
        ((reverseEnum.reverseEnumList cs).reverse)).2.Perm
      (collectNode.collectChildren p cs).2 := by
  cases cs with
  | nil => exact ⟨List.Perm.refl _, List.Perm.refl _⟩
  | cons c cs' =>
    have hrec := collectChildren_reverseEnumList cs' p
    have hone := collect_reverseEnum c (pjoin [p, c.name])
    simp only [reverseEnum.reverseEnumList, List.reverse_cons]
    rw [collectChildren_append]
    constructor
    · refine ((hrec.1.append ?_).trans (List.perm_append_comm)).trans
        (List.Perm.refl _)
      have hname : (reverseEnum c).name = c.name := reverseEnum_name c
      simp only [collectNode.collectChildren, hname]
      simpa using hone.1
    · refine ((hrec.2.append ?_).trans (List.perm_append_comm)).trans
        (List.Perm.refl _)
      have hname : (reverseEnum c).name = c.name := reverseEnum_name c
      simp only [collectNode.collectChildren, hname]
      simpa using hone.2

end

/-! ## Claim C6: digest determinism and traversal-order independence -/

/-- C6: hashing the same tree twice yields the same digest; any two walks
of the tree that collect the same multiset of file paths and of symlink
paths feed SHA-256 exactly the same byte stream (the lexicographic sorting
of the two collected lists is what makes this hold); and the concrete
re-enumeration that reverses every directory's child order leaves the
digest unchanged. -/
theorem hashDir_enumeration_order_independent (sha : String → String)
    (readFile readLink : String → Option String) (root : String)
    (t t' : FsNode) (hf : (collectNode root t).1.Perm (collectNode root t').1)
    (hs : (collectNode root t).2.Perm (collectNode root t').2) :
    HashDir sha readFile readLink root (some t)
      = HashDir sha readFile readLink root (some t)
    ∧ HashDir sha readFile readLink root (some t)
      = HashDir sha readFile readLink root (some t')
    ∧ HashDir sha readFile readLink root (some (reverseEnum t))
      = HashDir sha readFile readLink root (some t) := by
  refine ⟨rfl, ?_, ?_⟩
  · unfold HashDir
    exact congrArg (fun s => Except.ok (sha s))
      (hashDirStream_eq_of_perm root readFile readLink hf hs)
  · unfold HashDir
    exact congrArg (fun s => Except.ok (sha s))
      (hashDirStream_eq_of_perm root readFile readLink
        (collect_reverseEnum t root).1 (collect_reverseEnum t root).2)

/-- C6, witness: the same two-file directory enumerated in both orders. -/
theorem hashDir_enumeration_order_independent_witness :
    HashDir (fun s => s) (fun _ => some "x") (fun _ => none) "/r"
      (some (FsNode.dir "d" false [FsNode.file "a", FsNode.file "b"]))
    = HashDir (fun s => s) (fun _ => some "x") (fun _ => none) "/r"
      (some (FsNode.dir "d" false [FsNode.file "b", FsNode.file "a"])) :=
  (hashDir_enumeration_order_independent (fun s => s) (fun _ => some "x")
    (fun _ => none) "/r"
    (FsNode.dir "d" false [FsNode.file "a", FsNode.file "b"])
    (FsNode.dir "d" false [FsNode.file "b", FsNode.file "a"])
    (by decide) (by decide)).2.1

/-! ## Claim C7: error tolerance of the directory hasher -/

/-- C7, counterexample. The claim says a directory-open error at the root
fails the whole hash operation, but the refined `HashDir`'s walk callback
swallows *every* walk error (`if err != nil { return nil }`), including the
root error, so the hash succeeds with the digest of the empty stream
instead of returning an error. -/
theorem hashDir_root_error_counterexample :
    HashDir (fun s => s) (fun _ => none) (fun _ => none) "/gone" none
      = Except.ok "" :=
  rfl

/-- C7 (amended): the hasher tolerates every error: it never returns an
error at all. A per-file open error skips exactly that file's content — the
stream is the same as if the file had read back empty, every other file
being untouched (the file's relative path was already written before the
failed open) — and a directory-open error at the root is likewise
swallowed, producing the digest of the empty stream rather than a
failure. -/
theorem hashDir_error_tolerance (sha : String → String)
    (readFile readLink : String → Option String) (root : String)
    (fs : Option FsNode) (fp : String) :
    (HashDir sha readFile readLink root fs).isOk = true
    ∧ HashDir sha (fun q => if q = fp then none else readFile q) readLink
        root fs
      = HashDir sha (fun q => if q = fp then some "" else readFile q)
        readLink root fs
    ∧ HashDir sha readFile readLink root none = Except.ok (sha "") := by
  refine ⟨?_, ?_, rfl⟩
  · unfold HashDir
    rfl
  · have hpt : ∀ q, fileWrites root (fun x => if x = fp then none
        else readFile x) q
      = fileWrites root (fun x => if x = fp then some "" else readFile x)
        q := by
      intro q
      unfold fileWrites
      by_cases hq : q = fp <;>
        rcases prel root q with _ | rel <;> simp [hq]
    rcases fs with _ | n <;>
      simp only [HashDir, hashDirStream] <;>
      rw [List.map_congr_left (fun a _ => hpt a)]

end Dfc
